import Mathlib

/-!
Verification of the wikipedia-page-views pipeline.

Shallow embedding of the two core modules:
* `src/ingest/page_views.py` — the checkpointed, time-budgeted ingest loop
  (`run`, `fetch_pageviews_for_date`);
* `src/transforms/page_views/main.py` — the two-pass popular-pages transform
  (`build_popular_pages_set`, `transform_popular_pages`) and the monthly
  aggregator (`transform_monthly_views`).

Dates in the ingest loop are modelled as natural numbers (days); snapshot
tables as lists of rows; the Python dict used by the monthly aggregator as an
insertion-ordered association list, matching CPython dict semantics.
-/

namespace PageViews
/-- One row of a daily snapshot, as written by `fetch_pageviews_for_date`:
columns date (string "YYYY-MM-DD"), entity, page_id (strings), views (int64). -/
structure Row where
  date : String
  entity : String
  page_id : String
  views : Int
deriving DecidableEq, Repr

/-- Column order of the parquet tables written by `fetch_pageviews_for_date`
(`pa.table({'date': ..., 'entity': ..., 'page_id': ..., 'views': ...})`). -/
def snapshotSchema : List String := ["date", "entity", "page_id", "views"]

/-- A pyarrow table: named column order plus the row data. -/
structure Table where
  schema : List String
  rows : List Row
deriving DecidableEq, Repr

/-! ### Monthly aggregator (`transform_monthly_views`) -/

/-- `date[:7]` — truncate an ISO date string to "YYYY-MM" (the first seven
code points, as a Python string slice takes them). -/
def monthOf (r : Row) : String := (r.date.toList.take 7).asString

/-- Key of the monthly accumulator: `(month, page_id)`. -/
abbrev MKey := String × String

/-- One step of the accumulator update
`monthly_data[key]["entity"] = entity; monthly_data[key]["views"] += view_count`
on an insertion-ordered association list: if the key is present, overwrite the
entity and add the views in place; otherwise append a fresh entry at the end
(CPython dict insertion order). -/
def updateAcc (key : MKey) (e : String) (v : Int) :
    List (MKey × String × Int) → List (MKey × String × Int)
  | [] => [(key, e, v)]
  | (k, e0, v0) :: rest =>
    if k = key then (k, e, v0 + v) :: rest
    else (k, e0, v0) :: updateAcc key e v rest

/-- Fold the per-row update over a list of rows, as the
`for date, page_id, entity, view_count in zip(...)` loop does. -/
def accRows (rows : List Row) (acc : List (MKey × String × Int)) :
    List (MKey × String × Int) :=
  rows.foldl (fun a r => updateAcc (monthOf r, r.page_id) r.entity r.views a) acc

/-- One row of the monthly output table. -/
structure MonthlyRow where
  month : String
  page_id : String
  entity : String
  views : Int
deriving DecidableEq, Repr

/-- `transform_monthly_views`: accumulate every row of every file into the
`(month, page_id)` map, then emit one output row per accumulator entry, in
dict (= first-insertion) order. -/
def transform_monthly_views (files : List (List Row)) : List MonthlyRow :=
  (accRows files.flatten []).map fun kev => ⟨kev.1.1, kev.1.2, kev.2.1, kev.2.2⟩

/-- The snapshot rows contributing to accumulator key `key`, in scan order. -/
def rowsFor (key : MKey) (rows : List Row) : List Row :=
  rows.filter fun r => monthOf r = key.1 ∧ r.page_id = key.2

/-- Find the value stored at `key` in the accumulator. -/
def accFind (key : MKey) : List (MKey × String × Int) → Option (String × Int)
  | [] => none
  | (k, e, v) :: rest => if k = key then some (e, v) else accFind key rest

/-! ### Popular-set builder (`build_popular_pages_set`, Pass 1) -/

/-- `TOP_K_PER_DAY = 10_000`. -/
def TOP_K_PER_DAY : Nat := 10000

/-- Insert a row into a views-descending sorted list, after all rows with at
least as many views. -/
def insertDesc (r : Row) : List Row → List Row
  | [] => [r]
  | x :: xs => if x.views < r.views then r :: x :: xs else x :: insertDesc r xs

/-- Stable sort by views descending, as
`pc.sort_indices(table, [("views", "descending")])` orders the rows: rows are
inserted in input order and each lands after all already-placed rows with at
least as many views, so equal-views rows keep their original order
(`sortViewsDesc_sorted` proves the descending order, `sortViewsDesc_stable`
the stability). -/
def sortViewsDesc (rows : List Row) : List Row :=
  rows.foldl (fun acc r => insertDesc r acc) []

/-- One snapshot's top-K rows: the first `k` (`indices[:k]`) of the stable
descending sort by views. -/
def topK (k : Nat) (rows : List Row) : List Row := (sortViewsDesc rows).take k

/-- Pass 1: fold over all files, adding each file's top-K page ids to the
running set (`popular_pages.update(page_ids)`). -/
def build_popular_pages_set (k : Nat) (files : List (List Row)) : Finset String :=
  files.foldl (fun s f => s ∪ ((topK k f).map Row.page_id).toFinset) ∅

/-! ### Popular-series builder (`transform_popular_pages`, Pass 2) -/

/-- The schema of the empty table constructed when no rows match
(`pa.table({"date": [], "page_id": [], "entity": [], "views": []})`). -/
def emptySchema : List String := ["date", "page_id", "entity", "views"]

/-- Filter one snapshot table to the popular pages
(`pc.is_in(page_ids, value_set=...)` then `table.filter(mask)`),
keeping the table's schema. -/
def filterPopular (pop : Finset String) (t : Table) : Table :=
  ⟨t.schema, t.rows.filter fun r => decide (r.page_id ∈ pop)⟩

/-- Pass 2: filter every file, keep the non-empty results, and either return
the declared empty table (no matches) or concatenate
(`pa.concat_tables` takes the first table's schema). -/
def transform_popular_pages (files : List Table) (pop : Finset String) : Table :=
  let kept := (files.map (filterPopular pop)).filter fun t => !t.rows.isEmpty
  if kept = [] then ⟨emptySchema, []⟩
  else ⟨(kept.headD ⟨[], []⟩).schema, (kept.map Table.rows).flatten⟩

/-! ### Ingest loop (`run` in `src/ingest/page_views.py`)

Dates are modelled as day numbers (`Nat`). One invocation reads the stored
checkpoint, computes the inclusive range `checkpoint+1 .. yesterday`, and
walks it in ascending order. Per date, `fetch_pageviews_for_date` either
succeeds (it writes the snapshot parquet itself, then the loop writes the
checkpoint), raises `ValueError` (caught: the date is skipped), or raises
some other exception (propagates out of `run`). Before each date the elapsed
wall-clock time is compared with `GH_ACTIONS_MAX_RUN_SECONDS`. The observable
effects are recorded as an event trace. -/

/-- Outcome of one `fetch_pageviews_for_date` call for a given date:
`ok` (rows written), `missing` (`ValueError`, zero qualifying rows — caught
by `run`), or `fatal` (any other exception — propagates). -/
inductive FetchResult
  | ok
  | missing
  | fatal
deriving DecidableEq, Repr

/-- The ingest loop's environment: per-date fetch outcome, elapsed wall-clock
seconds observed at the top of the i-th iteration, and the time budget
(`GH_ACTIONS_MAX_RUN_SECONDS`). -/
structure IngestEnv where
  fetch : Nat → FetchResult
  elapsed : Nat → Nat
  budget : Nat

/-- Externally observable ingest effects, in program order. -/
inductive Event
  | fetchAttempt (d : Nat)
  | writeSnapshot (d : Nat)
  | writeCheckpoint (d : Nat)
deriving DecidableEq, Repr

/-- How one invocation of `run` ends: `finished b` returns the
continuation-needed boolean `b`; `raised` means an uncaught exception. -/
inductive RunOutcome
  | finished (continuation : Bool)
  | raised
deriving DecidableEq, Repr

/-- Fuel-indexed body of the `while current_date <= end_date` loop. The fuel
equals `endDate + 1 - cur` at every call, so the zero-fuel branch coincides
with the loop-exit branch. -/
def runLoopF (env : IngestEnv) (endDate : Nat) :
    Nat → Nat → Nat → List Event × RunOutcome
  | 0, _, _ => ([], .finished false)
  | fuel + 1, cur, iter =>
    if endDate < cur then ([], .finished false)
    else if env.budget ≤ env.elapsed iter then ([], .finished true)
    else
      match env.fetch cur with
      | .ok =>
        let r := runLoopF env endDate fuel (cur + 1) (iter + 1)
        (.fetchAttempt cur :: .writeSnapshot cur :: .writeCheckpoint cur :: r.1,
          r.2)
      | .missing =>
        let r := runLoopF env endDate fuel (cur + 1) (iter + 1)
        (.fetchAttempt cur :: r.1, r.2)
      | .fatal => ([.fetchAttempt cur], .raised)

/-- The `while current_date <= end_date` loop of `run`, entered at `cur` with
`iter` iterations already behind it. -/
def runLoop (env : IngestEnv) (endDate cur iter : Nat) :
    List Event × RunOutcome :=
  runLoopF env endDate (endDate + 1 - cur) cur iter

/-- `start_date`: day after the stored checkpoint, else the default start
(`DATA_COLLECTION_START_DATE`). -/
def startOf (checkpoint : Option Nat) (defaultStart : Nat) : Nat :=
  match checkpoint with
  | some c => c + 1
  | none => defaultStart

/-- One invocation of `run`: load state, compute the range
`start_date .. yesterday`, return `False` with no side effects on an empty
range, else run the loop. -/
def run (env : IngestEnv) (checkpoint : Option Nat)
    (defaultStart yesterday : Nat) : List Event × RunOutcome :=
  if yesterday < startOf checkpoint defaultStart then ([], .finished false)
  else runLoop env yesterday (startOf checkpoint defaultStart) 0

/-- The dates for which a fetch was attempted, in order. -/
def attempts (tr : List Event) : List Nat :=
  tr.filterMap fun e =>
    match e with
    | .fetchAttempt d => some d
    | _ => none

/-- The checkpoint values written, in order. -/
def checkpointWrites (tr : List Event) : List Nat :=
  tr.filterMap fun e =>
    match e with
    | .writeCheckpoint d => some d
    | _ => none

/-- The checkpoint stored after the trace, given the initially stored one:
the last `writeCheckpoint` wins. -/
def finalCheckpoint (init : Option Nat) (tr : List Event) : Option Nat :=
  tr.foldl
    (fun c e =>
      match e with
      | .writeCheckpoint d => some d
      | _ => c)
    init

/-- Every checkpoint write in the trace is preceded, within the trace, by the
matching snapshot write. -/
def SnapBeforeCkpt (tr : List Event) : Prop :=
  ∀ tr₁ d tr₂, tr = tr₁ ++ Event.writeCheckpoint d :: tr₂ →
    Event.writeSnapshot d ∈ tr₁

/-- Ingest environment for the MissingUpstreamData scenario: date 11's dump
yields zero qualifying rows, every other date fetches fine, and the time
budget is never reached. -/
def envMissing : IngestEnv :=
  ⟨fun d => if d = 11 then .missing else .ok, fun _ => 0, 1⟩

/-! ### `fetch_pageviews_for_date` line processing -/

/-- Value of a digit string, as the usual base-10 fold. -/
def digitsToNat (ds : List Char) : Nat :=
  ds.foldl (fun n c => n * 10 + (c.toNat - Char.toNat (Char.ofNat 48))) 0

/-- Python `int(...)` on a whitespace-free field: an optional sign followed by
at least one ASCII digit parses to that decimal value; anything else raises
`ValueError` (`none`). -/
def parseInt (s : String) : Option Int :=
  match s.toList with
  | [] => none
  | c :: ds =>
    if c = Char.ofNat 45 then
      if ds ≠ [] ∧ ds.all (fun d => d.isDigit) then some (-(digitsToNat ds : Int))
      else none
    else if c = Char.ofNat 43 then
      if ds ≠ [] ∧ ds.all (fun d => d.isDigit) then some (digitsToNat ds : Int)
      else none
    else if (c :: ds).all (fun d => d.isDigit) then
      some (digitsToNat (c :: ds) : Int)
    else none

/-- One line of the dump (already whitespace-split into fields), folded into
the accumulated row lists: lines without exactly six fields are skipped; a
line is kept when `project == 'en.wikipedia' and page_id != 'null'`; the view
count is then parsed with `int(...)` (an unparsable count raises, modelled as
`Except.error`). -/
def parseLine (dateStr : String) (acc : List Row) (split : List String) :
    Except Unit (List Row) :=
  match split with
  | [project, entity, page_id, _f4, view_count, _f6] =>
    if project = "en.wikipedia" ∧ page_id ≠ "null" then
      match parseInt view_count with
      | some v => .ok (acc ++ [⟨dateStr, entity, page_id, v⟩])
      | none => .error ()
    else .ok acc
  | _ => .ok acc

/-- The row-producing part of `fetch_pageviews_for_date`: process every line,
then raise `ValueError` (modelled as `Except.error`) when zero qualifying
rows were found (`if not dates: raise ValueError(...)`). -/
def fetch_pageviews (dateStr : String) (lines : List (List String)) :
    Except Unit (List Row) := do
  let rows ← lines.foldlM (parseLine dateStr) []
  if rows.isEmpty then .error () else .ok rows

/-- Whitespace-split dump lines with a single accepted line whose view count
is zero: the ingest filter keeps it (`en.wikipedia`, page id not `"null"`). -/
def linesZero : List (List String) := [["en.wikipedia", "E", "P", "d", "0", "a"]]

/-- The snapshot row the ingest step produces from `linesZero`. -/
def rowZero : Row := ⟨"2024-01-05", "E", "P", 0⟩

/-! ### Concrete scenario inputs (from the spec's test scenarios) -/

/-- Scenario row `(pageA, eA, 50)` on a given date. -/
def rowA (d : String) : Row := ⟨d, "eA", "pageA", 50⟩

/-- Scenario row `(pageB, eB, 5)` on a given date. -/
def rowB (d : String) : Row := ⟨d, "eB", "pageB", 5⟩

/-- Three single-day snapshots 2024-01-01..03, each
`[(pageA, eA, 50), (pageB, eB, 5)]`. -/
def exFiles : List (List Row) :=
  [[rowA "2024-01-01", rowB "2024-01-01"],
   [rowA "2024-01-02", rowB "2024-01-02"],
   [rowA "2024-01-03", rowB "2024-01-03"]]

/-- The same snapshots as stored tables. -/
def exTables : List Table :=
  [⟨snapshotSchema, [rowA "2024-01-01", rowB "2024-01-01"]⟩,
   ⟨snapshotSchema, [rowA "2024-01-02", rowB "2024-01-02"]⟩]

/-- A popular set containing only pageA. -/
def popEx : Finset String := {"pageA"}

/-- A one-row ingested snapshot table with positive views. -/
def tableEx : Table := ⟨snapshotSchema, [⟨"2024-01-05", "E", "P", 5⟩]⟩

/-- Ingest environment where every fetch succeeds and the budget never
expires. -/
def envOk : IngestEnv := ⟨fun _ => .ok, fun _ => 0, 1⟩

/-- Ingest environment whose budget is already exhausted at the start. -/
def envBudget : IngestEnv := ⟨fun _ => .ok, fun _ => 0, 0⟩

/-- Ingest environment where every date's dump is missing. -/
def envAllMissing : IngestEnv := ⟨fun _ => .missing, fun _ => 0, 1⟩

theorem accFind_updateAcc_self (key : MKey) (e : String) (v : Int)
    (acc : List (MKey × String × Int)) :
    accFind key (updateAcc key e v acc) =
      some (e, ((accFind key acc).map Prod.snd).getD 0 + v) := by
  induction acc with
  | nil => simp [updateAcc, accFind]
  | cons kv rest ih =>
    obtain ⟨k, e0, v0⟩ := kv
    by_cases hk : k = key
    · subst hk
      simp [updateAcc, accFind]
    · simp [updateAcc, accFind, hk, ih]

theorem accFind_updateAcc_other (key k' : MKey) (e : String) (v : Int)
    (acc : List (MKey × String × Int)) (hne : k' ≠ key) :
    accFind k' (updateAcc key e v acc) = accFind k' acc := by
  induction acc with
  | nil =>
    simp only [updateAcc, accFind]
    rw [if_neg (fun h => hne h.symm)]
  | cons kv rest ih =>
    obtain ⟨k, e0, v0⟩ := kv
    by_cases hk : k = key
    · subst hk
      simp only [updateAcc, accFind, if_pos rfl]
      rw [if_neg (fun h => hne h.symm), if_neg (fun h => hne h.symm)]
    · simp only [updateAcc, accFind, if_neg hk]
      by_cases hk' : k = k'
      · simp [hk']
      · simp [hk', ih]

theorem getLast?_cons_eq_some {α : Type} (l : List α) (a : α) :
    (a :: l).getLast? = some ((l.getLast?).getD a) := by
  induction l generalizing a with
  | nil => rfl
  | cons c l ih =>
    rw [List.getLast?_cons_cons, ih c]
    simp

theorem getLast?_cons_getD {α : Type} (l : List α) (a b : α) :
    ((a :: l).getLast?).getD b = (l.getLast?).getD a := by
  rw [getLast?_cons_eq_some]
  rfl

theorem keys_updateAcc (key : MKey) (e : String) (v : Int)
    (acc : List (MKey × String × Int)) :
    (updateAcc key e v acc).map Prod.fst =
      if (accFind key acc).isSome then acc.map Prod.fst
      else acc.map Prod.fst ++ [key] := by
  induction acc with
  | nil => simp [updateAcc, accFind]
  | cons kv rest ih =>
    obtain ⟨k, e0, v0⟩ := kv
    by_cases hk : k = key
    · subst hk
      simp [updateAcc, accFind]
    · simp only [updateAcc, accFind, if_neg hk, List.map_cons, ih]
      by_cases h : (accFind key rest).isSome <;> simp [h]

theorem accFind_eq_none_iff (key : MKey) (acc : List (MKey × String × Int)) :
    accFind key acc = none ↔ key ∉ acc.map Prod.fst := by
  induction acc with
  | nil => simp [accFind]
  | cons kv rest ih =>
    obtain ⟨k, e0, v0⟩ := kv
    by_cases hk : k = key
    · subst hk
      simp [accFind]
    · simp only [accFind, if_neg hk, List.map_cons, List.mem_cons, ih]
      constructor
      · intro h hmem
        rcases hmem with h1 | h2
        · exact hk h1.symm
        · exact h h2
      · intro h hm
        exact h (Or.inr hm)

theorem nodup_keys_updateAcc (key : MKey) (e : String) (v : Int)
    (acc : List (MKey × String × Int))
    (h : (acc.map Prod.fst).Nodup) :
    ((updateAcc key e v acc).map Prod.fst).Nodup := by
  rw [keys_updateAcc]
  by_cases hf : (accFind key acc).isSome
  · simpa [hf] using h
  · have hnone : accFind key acc = none := by
      cases hacc : accFind key acc with
      | none => rfl
      | some x => simp [hacc] at hf
    rw [if_neg hf]
    refine List.Nodup.append h (List.nodup_singleton key) ?h
    intro a ha hb
    rcases List.mem_singleton.mp hb with rfl
    exact (accFind_eq_none_iff a acc).mp hnone ha

theorem accFind_of_mem (acc : List (MKey × String × Int))
    (h : (acc.map Prod.fst).Nodup) (k : MKey) (e : String) (v : Int)
    (hmem : (k, e, v) ∈ acc) : accFind k acc = some (e, v) := by
  induction acc with
  | nil => simp at hmem
  | cons kv rest ih =>
    obtain ⟨k0, e0, v0⟩ := kv
    simp only [List.map_cons] at h
    have h' := List.nodup_cons.mp h
    rcases List.mem_cons.mp hmem with heq | hrest
    · simp only [Prod.mk.injEq] at heq
      obtain ⟨rfl, rfl, rfl⟩ := heq
      simp [accFind]
    · have hk0 : k0 ≠ k := by
        intro h0
        subst h0
        exact h'.1 (List.mem_map.mpr ⟨(k0, e, v), hrest, rfl⟩)
      simp only [accFind, if_neg hk0]
      exact ih h'.2 hrest

theorem rowsFor_cons_match (key : MKey) (r : Row) (rest : List Row)
    (hk : (monthOf r, r.page_id) = key) :
    rowsFor key (r :: rest) = r :: rowsFor key rest := by
  have hcond : monthOf r = key.1 ∧ r.page_id = key.2 := by
    rw [← hk]
    exact ⟨rfl, rfl⟩
  simp [rowsFor, List.filter_cons, hcond]

theorem rowsFor_cons_miss (key : MKey) (r : Row) (rest : List Row)
    (hk : (monthOf r, r.page_id) ≠ key) :
    rowsFor key (r :: rest) = rowsFor key rest := by
  have hcond : ¬(monthOf r = key.1 ∧ r.page_id = key.2) := by
    intro hc
    exact hk (Prod.ext_iff.mpr ⟨hc.1, hc.2⟩)
  simp [rowsFor, List.filter_cons, hcond]

/-- Accumulator characterization, present-key case: scanning `rows` on top of
an accumulator holding `(e0, v0)` at `key` yields the last matching entity
(default `e0`) and `v0` plus the sum of matching views. -/
theorem accFind_accRows_some (rows : List Row) (acc : List (MKey × String × Int))
    (key : MKey) (e0 : String) (v0 : Int)
    (h : accFind key acc = some (e0, v0)) :
    accFind key (accRows rows acc) =
      some (((rowsFor key rows).map Row.entity).getLast?.getD e0,
            v0 + ((rowsFor key rows).map Row.views).sum) := by
  induction rows generalizing acc e0 v0 with
  | nil => simpa [accRows, rowsFor] using h
  | cons r rest ih =>
    have hacc : accRows (r :: rest) acc =
        accRows rest (updateAcc (monthOf r, r.page_id) r.entity r.views acc) := rfl
    by_cases hk : (monthOf r, r.page_id) = key
    · rw [hk] at hacc
      have hself := accFind_updateAcc_self key r.entity r.views acc
      rw [h] at hself
      simp at hself
      rw [hacc, ih _ _ _ hself, rowsFor_cons_match key r rest hk]
      simp only [List.map_cons, List.sum_cons, getLast?_cons_getD]
      rw [add_assoc]
    · have hother := accFind_updateAcc_other (monthOf r, r.page_id) key
        r.entity r.views acc (Ne.symm hk)
      rw [hacc, ih _ _ _ (hother.trans h), rowsFor_cons_miss key r rest hk]

/-- Accumulator characterization, absent-key case: scanning `rows` on top of
an accumulator without `key` yields an entry iff some row matches, holding the
last matching entity and the sum of matching views. -/
theorem accFind_accRows_none (rows : List Row) (acc : List (MKey × String × Int))
    (key : MKey) (h : accFind key acc = none) :
    accFind key (accRows rows acc) =
      (((rowsFor key rows).map Row.entity).getLast?).map
        (fun e => (e, ((rowsFor key rows).map Row.views).sum)) := by
  induction rows generalizing acc with
  | nil => simpa [accRows, rowsFor] using h
  | cons r rest ih =>
    have hacc : accRows (r :: rest) acc =
        accRows rest (updateAcc (monthOf r, r.page_id) r.entity r.views acc) := rfl
    by_cases hk : (monthOf r, r.page_id) = key
    · rw [hk] at hacc
      have hself := accFind_updateAcc_self key r.entity r.views acc
      rw [h] at hself
      simp at hself
      rw [hacc, accFind_accRows_some rest _ key _ _ hself,
        rowsFor_cons_match key r rest hk]
      simp only [List.map_cons, List.sum_cons, getLast?_cons_getD,
        getLast?_cons_eq_some]
      rfl
    · have hother := accFind_updateAcc_other (monthOf r, r.page_id) key
        r.entity r.views acc (Ne.symm hk)
      rw [hacc, ih _ (hother.trans h), rowsFor_cons_miss key r rest hk]

/-- The accumulator's key list stays duplicate-free along a whole scan. -/
theorem nodup_keys_accRows (rows : List Row) (acc : List (MKey × String × Int))
    (h : (acc.map Prod.fst).Nodup) :
    ((accRows rows acc).map Prod.fst).Nodup := by
  induction rows generalizing acc with
  | nil => exact h
  | cons r rest ih =>
    exact ih _ (nodup_keys_updateAcc _ _ _ _ h)

theorem keys_transform_monthly (files : List (List Row)) :
    (transform_monthly_views files).map (fun m => (m.month, m.page_id)) =
      (accRows files.flatten []).map Prod.fst := by
  simp only [transform_monthly_views, List.map_map]
  rfl

/-- C2: `transform_monthly_views` emits exactly one row per `(month, page)`
pair occurring in the input; its views are the sum of the views of the
snapshot rows with that page whose date truncates to that month, and its
entity is the entity of the last such row in scan order. -/
theorem monthly_totals_correct (files : List (List Row)) :
    (((transform_monthly_views files).map fun m => (m.month, m.page_id)).Nodup) ∧
    (∀ key : MKey,
      key ∈ (transform_monthly_views files).map (fun m => (m.month, m.page_id)) ↔
        rowsFor key files.flatten ≠ []) ∧
    (∀ mr ∈ transform_monthly_views files,
      mr.views = ((rowsFor (mr.month, mr.page_id) files.flatten).map Row.views).sum ∧
      ((rowsFor (mr.month, mr.page_id) files.flatten).map Row.entity).getLast?
        = some mr.entity) := by
  have hnodup : ((accRows files.flatten []).map Prod.fst).Nodup :=
    nodup_keys_accRows files.flatten [] (by simp)
  have hchar := fun key => accFind_accRows_none files.flatten [] key rfl
  refine ⟨?n, ?m, ?e⟩
  case n => rw [keys_transform_monthly]; exact hnodup
  case m =>
    intro key
    rw [keys_transform_monthly]
    constructor
    · intro hmem hempty
      have hnone : accFind key (accRows files.flatten []) = none := by
        rw [hchar key, hempty]
        rfl
      exact (accFind_eq_none_iff key _).mp hnone hmem
    · intro hne
      by_contra hmem
      have hnone := (accFind_eq_none_iff key _).mpr hmem
      rw [hchar key] at hnone
      cases hlast : ((rowsFor key files.flatten).map Row.entity).getLast? with
      | none =>
        have : (rowsFor key files.flatten).map Row.entity = [] :=
          List.getLast?_eq_none_iff.mp hlast
        exact hne (List.map_eq_nil_iff.mp this)
      | some e => rw [hlast] at hnone; simp at hnone
  case e =>
    intro mr hmr
    obtain ⟨kev, hkev, hg⟩ := List.mem_map.mp hmr
    obtain ⟨key, e, v⟩ := kev
    have hfind : accFind key (accRows files.flatten []) = some (e, v) :=
      accFind_of_mem _ hnodup key e v hkev
    rw [hchar key] at hfind
    have hkey : (mr.month, mr.page_id) = key := by
      rw [← hg]
    have he : mr.entity = e := by rw [← hg]
    have hv : mr.views = v := by rw [← hg]
    cases hlast : ((rowsFor key files.flatten).map Row.entity).getLast? with
    | none => rw [hlast] at hfind; simp at hfind
    | some e' =>
      rw [hlast] at hfind
      injection hfind with hf
      injection hf with hf1 hf2
      constructor
      · rw [hv, hkey, ← hf2]
      · rw [hkey, hlast, he, hf1]

theorem mem_insertDesc (y r : Row) (l : List Row) :
    y ∈ insertDesc r l ↔ y = r ∨ y ∈ l := by
  induction l with
  | nil => simp [insertDesc]
  | cons x xs ih =>
    by_cases h : x.views < r.views
    · simp [insertDesc, h]
    · simp only [insertDesc, if_neg h, List.mem_cons, ih]
      tauto

theorem length_insertDesc (r : Row) (l : List Row) :
    (insertDesc r l).length = l.length + 1 := by
  induction l with
  | nil => rfl
  | cons x xs ih =>
    by_cases h : x.views < r.views
    · simp [insertDesc, h]
    · simp [insertDesc, h, ih]

theorem foldl_insertDesc_mem (l : List Row) :
    ∀ (acc : List Row) (y : Row),
      y ∈ l.foldl (fun acc r => insertDesc r acc) acc ↔ y ∈ acc ∨ y ∈ l := by
  induction l with
  | nil =>
    intro acc y
    simp
  | cons r rest ih =>
    intro acc y
    rw [List.foldl_cons, ih, mem_insertDesc]
    simp only [List.mem_cons]
    tauto

theorem mem_sortViewsDesc (y : Row) (l : List Row) :
    y ∈ sortViewsDesc l ↔ y ∈ l := by
  rw [sortViewsDesc, foldl_insertDesc_mem]
  simp

theorem foldl_insertDesc_length (l : List Row) :
    ∀ acc : List Row,
      (l.foldl (fun acc r => insertDesc r acc) acc).length =
        acc.length + l.length := by
  induction l with
  | nil =>
    intro acc
    rfl
  | cons r rest ih =>
    intro acc
    rw [List.foldl_cons, ih, length_insertDesc, List.length_cons]
    omega

theorem length_sortViewsDesc (l : List Row) :
    (sortViewsDesc l).length = l.length := by
  rw [sortViewsDesc, foldl_insertDesc_length]
  simp

theorem chain_insertDesc (r : Row) (l : List Row)
    (h : List.Chain' (fun a b => b.views ≤ a.views) l) :
    List.Chain' (fun a b => b.views ≤ a.views) (insertDesc r l) := by
  induction l with
  | nil => simp [insertDesc]
  | cons x xs ih =>
    have h' := List.chain'_cons'.mp h
    by_cases hx : x.views < r.views
    · rw [insertDesc, if_pos hx, List.chain'_cons']
      refine ⟨?hd1, h⟩
      intro b hb
      rw [List.head?_cons] at hb
      have hbx : b = x := by simpa [eq_comm] using hb
      subst hbx
      omega
    · rw [insertDesc, if_neg hx, List.chain'_cons']
      refine ⟨?hd2, ih h'.2⟩
      intro b hb
      cases xs with
      | nil =>
        rw [show insertDesc r [] = [r] from rfl, List.head?_cons] at hb
        have hbr : b = r := by simpa [eq_comm] using hb
        subst hbr
        omega
      | cons z zs =>
        by_cases hz : z.views < r.views
        · rw [insertDesc, if_pos hz, List.head?_cons] at hb
          have hbr : b = r := by simpa [eq_comm] using hb
          subst hbr
          omega
        · rw [insertDesc, if_neg hz, List.head?_cons] at hb
          have hbz : b = z := by simpa [eq_comm] using hb
          subst hbz
          exact h'.1 b rfl

theorem foldl_insertDesc_chain (l : List Row) :
    ∀ acc : List Row, List.Chain' (fun a b => b.views ≤ a.views) acc →
      List.Chain' (fun a b => b.views ≤ a.views)
        (l.foldl (fun acc r => insertDesc r acc) acc) := by
  induction l with
  | nil =>
    intro acc h
    exact h
  | cons r rest ih =>
    intro acc h
    rw [List.foldl_cons]
    exact ih _ (chain_insertDesc r acc h)

/-- The stable descending sort really is views-descending. -/
theorem sortViewsDesc_sorted (l : List Row) :
    List.Chain' (fun a b => b.views ≤ a.views) (sortViewsDesc l) :=
  foldl_insertDesc_chain l [] (by simp)

/-- In a views-descending sorted list, the head bounds the tail. -/
theorem sorted_head_bound (x : Row) (xs : List Row)
    (h : List.Chain' (fun a b => b.views ≤ a.views) (x :: xs)) :
    ∀ y ∈ xs, y.views ≤ x.views := by
  induction xs generalizing x with
  | nil =>
    intro y hy
    simp at hy
  | cons z zs ih =>
    intro y hy
    have h' := List.chain'_cons'.mp h
    have hzx : z.views ≤ x.views := h'.1 z rfl
    rcases List.mem_cons.mp hy with rfl | hy'
    · exact hzx
    · have := ih z h'.2 y hy'
      omega

/-- Inserting into a sorted list places the new row after all its ties. -/
theorem filter_insertDesc_tie (r : Row) (acc : List Row)
    (hsorted : List.Chain' (fun a b => b.views ≤ a.views) acc) :
    (insertDesc r acc).filter (fun x => decide (x.views = r.views)) =
      acc.filter (fun x => decide (x.views = r.views)) ++ [r] := by
  induction acc with
  | nil => simp [insertDesc]
  | cons x xs ih =>
    have h' := List.chain'_cons'.mp hsorted
    by_cases hx : x.views < r.views
    · rw [insertDesc, if_pos hx]
      have hfe : (x :: xs).filter (fun x => decide (x.views = r.views)) = [] := by
        rw [List.filter_eq_nil_iff]
        intro a ha
        rcases List.mem_cons.mp ha with rfl | ha'
        · simp
          omega
        · have := sorted_head_bound x xs hsorted a ha'
          simp
          omega
      rw [List.filter_cons, if_pos (by simp), hfe]
      rfl
    · rw [insertDesc, if_neg hx, List.filter_cons, List.filter_cons]
      by_cases hxr : x.views = r.views
      · rw [if_pos (by simp [hxr]), if_pos (by simp [hxr]),
          ih h'.2, List.cons_append]
      · rw [if_neg (by simp [hxr]), if_neg (by simp [hxr]), ih h'.2]

/-- Inserting a row does not disturb the rows with any other views value. -/
theorem filter_insertDesc_other (r : Row) (v : Int) (acc : List Row)
    (hv : v ≠ r.views) :
    (insertDesc r acc).filter (fun x => decide (x.views = v)) =
      acc.filter (fun x => decide (x.views = v)) := by
  induction acc with
  | nil =>
    rw [show insertDesc r [] = [r] from rfl, List.filter_cons,
      if_neg (by simp; exact fun h => hv h.symm)]
  | cons x xs ih =>
    by_cases hx : x.views < r.views
    · rw [insertDesc, if_pos hx, List.filter_cons,
        if_neg (by simp; exact fun h => hv h.symm)]
    · rw [insertDesc, if_neg hx, List.filter_cons, List.filter_cons]
      by_cases hxv : x.views = v
      · rw [if_pos (by simp [hxv]), if_pos (by simp [hxv]), ih]
      · rw [if_neg (by simp [hxv]), if_neg (by simp [hxv]), ih]

theorem foldl_insertDesc_filter (v : Int) (l : List Row) :
    ∀ acc : List Row, List.Chain' (fun a b => b.views ≤ a.views) acc →
      (l.foldl (fun acc r => insertDesc r acc) acc).filter
          (fun x => decide (x.views = v)) =
        acc.filter (fun x => decide (x.views = v)) ++
          l.filter (fun x => decide (x.views = v)) := by
  induction l with
  | nil =>
    intro acc h
    simp
  | cons r rest ih =>
    intro acc h
    rw [List.foldl_cons, ih _ (chain_insertDesc r acc h), List.filter_cons]
    by_cases hv : r.views = v
    · subst hv
      rw [filter_insertDesc_tie r acc h, if_pos (by simp),
        List.append_assoc, List.singleton_append]
    · rw [filter_insertDesc_other r v acc (fun h2 => hv h2.symm),
        if_neg (by simp [hv])]

/-- Stability: for every views value, the sorted output lists the rows with
that value in exactly their input order — equal-views rows keep their
original order, as `pc.sort_indices`'s stable sort does. -/
theorem sortViewsDesc_stable (l : List Row) (v : Int) :
    (sortViewsDesc l).filter (fun x => decide (x.views = v)) =
      l.filter (fun x => decide (x.views = v)) := by
  rw [sortViewsDesc, foldl_insertDesc_filter v l [] (by simp)]
  rfl

theorem mem_build_popular_aux (k : Nat) (files : List (List Row))
    (init : Finset String) (p : String) :
    p ∈ files.foldl (fun s f => s ∪ ((topK k f).map Row.page_id).toFinset) init ↔
      p ∈ init ∨ ∃ f ∈ files, p ∈ (topK k f).map Row.page_id := by
  induction files generalizing init with
  | nil => simp
  | cons f rest ih =>
    simp only [List.foldl_cons, ih, Finset.mem_union, List.mem_toFinset,
      List.mem_cons]
    constructor
    · rintro ((hp | hp) | ⟨g, hg, hp⟩)
      · exact Or.inl hp
      · exact Or.inr ⟨f, Or.inl rfl, hp⟩
      · exact Or.inr ⟨g, Or.inr hg, hp⟩
    · rintro (hp | ⟨g, hg | hg, hp⟩)
      · exact Or.inl (Or.inl hp)
      · exact Or.inl (Or.inr (hg ▸ hp))
      · exact Or.inr ⟨g, hg, hp⟩

theorem flatten_filter_nonempty (l : List Table) :
    ((l.filter fun t => !t.rows.isEmpty).map Table.rows).flatten =
      (l.map Table.rows).flatten := by
  induction l with
  | nil => rfl
  | cons t rest ih =>
    by_cases h : t.rows.isEmpty
    · have hnil : t.rows = [] := List.isEmpty_iff.mp h
      simp [List.filter_cons, h, hnil, ih]
    · simp [List.filter_cons, h, ih]

theorem filter_flatten_eq {α : Type} (p : α → Bool) (l : List (List α)) :
    l.flatten.filter p = (l.map fun x => x.filter p).flatten := by
  induction l with
  | nil => rfl
  | cons x rest ih => simp [List.filter_append, ih]

theorem kept_eq_nil_iff (files : List Table) (pop : Finset String) :
    ((files.map (filterPopular pop)).filter fun t => !t.rows.isEmpty) = [] ↔
      (files.map Table.rows).flatten.filter (fun r => decide (r.page_id ∈ pop))
        = [] := by
  rw [filter_flatten_eq, List.map_map]
  constructor
  · intro h
    rw [List.filter_eq_nil_iff] at h
    apply List.flatten_eq_nil_iff.mpr
    intro xs hxs
    obtain ⟨t, ht, hxt⟩ := List.mem_map.mp hxs
    have h2 := h (filterPopular pop t) (List.mem_map.mpr ⟨t, ht, rfl⟩)
    have h3 : (filterPopular pop t).rows = [] := by
      rcases hc : (filterPopular pop t).rows with _ | ⟨a, l⟩
      · rfl
      · exact absurd (by rw [hc]; rfl) h2
    rw [← hxt]
    exact h3
  · intro h
    rw [List.filter_eq_nil_iff]
    intro t ht
    obtain ⟨t0, ht0, hft⟩ := List.mem_map.mp ht
    have hmem : (filterPopular pop t0).rows ∈
        files.map fun t => (filterPopular pop t).rows :=
      List.mem_map.mpr ⟨t0, ht0, rfl⟩
    have hnil := List.flatten_eq_nil_iff.mp h _ hmem
    rw [← hft]
    simp [List.isEmpty_iff, hnil]

theorem popular_series_rows_eq (files : List Table) (pop : Finset String) :
    (transform_popular_pages files pop).rows =
      (files.map Table.rows).flatten.filter fun r => decide (r.page_id ∈ pop) := by
  unfold transform_popular_pages
  by_cases hkept :
      ((files.map (filterPopular pop)).filter fun t => !t.rows.isEmpty) = []
  · rw [if_pos hkept]
    exact ((kept_eq_nil_iff files pop).mp hkept).symm
  · rw [if_neg hkept]
    show ((((files.map (filterPopular pop)).filter
        fun t => !t.rows.isEmpty).map Table.rows)).flatten = _
    rw [flatten_filter_nonempty, List.map_map, filter_flatten_eq, List.map_map]
    congr 1

/-- C3: `build_popular_pages_set` returns exactly the deduplicated union over
all snapshots of the page ids of each snapshot's first `k` rows sorted by
views descending; a snapshot with at most `k` rows contributes all of its
page ids. -/
theorem popular_set_spec (k : Nat) (files : List (List Row)) :
    (∀ p, p ∈ build_popular_pages_set k files ↔
      ∃ f ∈ files, p ∈ (topK k f).map Row.page_id) ∧
    (∀ f ∈ files, f.length ≤ k → ∀ r ∈ f,
      r.page_id ∈ build_popular_pages_set k files) := by
  constructor
  · intro p
    rw [build_popular_pages_set, mem_build_popular_aux]
    simp
  · intro f hf hlen r hr
    rw [build_popular_pages_set, mem_build_popular_aux]
    refine Or.inr ⟨f, hf, ?t⟩
    have hsorted : r ∈ sortViewsDesc f := (mem_sortViewsDesc r f).mpr hr
    have hall : (sortViewsDesc f).take k = sortViewsDesc f :=
      List.take_of_length_le (by rw [length_sortViewsDesc]; exact hlen)
    exact List.mem_map.mpr ⟨r, by rw [topK, hall]; exact hsorted, rfl⟩

/-- C4: Pass 2 keeps exactly the snapshot rows whose page id is in the popular
set, in file order then intra-file order; every output row's page is in the
set; and when nothing matches the result is the declared empty table, not an
absent one. -/
theorem popular_series_spec (files : List Table) (pop : Finset String) :
    ((transform_popular_pages files pop).rows =
      (files.map Table.rows).flatten.filter fun r => decide (r.page_id ∈ pop)) ∧
    (∀ r ∈ (transform_popular_pages files pop).rows, r.page_id ∈ pop) ∧
    ((files.map Table.rows).flatten.filter (fun r => decide (r.page_id ∈ pop))
        = [] → transform_popular_pages files pop = ⟨emptySchema, []⟩) := by
  refine ⟨popular_series_rows_eq files pop, ?m, ?e⟩
  case m =>
    intro r hr
    rw [popular_series_rows_eq] at hr
    have := List.of_mem_filter hr
    exact of_decide_eq_true this
  case e =>
    intro hnone
    unfold transform_popular_pages
    rw [if_pos ((kept_eq_nil_iff files pop).mpr hnone)]

/-- C10: the output column order of Pass 2 depends on whether any row matched:
with at least one match it is the stored snapshot order
(date, entity, page_id, views); with no match it is the built-in empty-table
order (date, page_id, entity, views); the two differ. -/
theorem popular_series_schema_split (files : List Table) (pop : Finset String)
    (hschema : ∀ t ∈ files, t.schema = snapshotSchema) :
    (((files.map Table.rows).flatten.filter
        (fun r => decide (r.page_id ∈ pop))) ≠ [] →
      (transform_popular_pages files pop).schema = snapshotSchema) ∧
    (((files.map Table.rows).flatten.filter
        (fun r => decide (r.page_id ∈ pop))) = [] →
      (transform_popular_pages files pop).schema = emptySchema) ∧
    snapshotSchema ≠ emptySchema := by
  refine ⟨?s, ?n, by decide⟩
  case n =>
    intro hnone
    unfold transform_popular_pages
    rw [if_pos ((kept_eq_nil_iff files pop).mpr hnone)]
  case s =>
    intro hsome
    have hkept : ((files.map (filterPopular pop)).filter
        fun t => !t.rows.isEmpty) ≠ [] :=
      fun h => hsome ((kept_eq_nil_iff files pop).mp h)
    unfold transform_popular_pages
    rw [if_neg hkept]
    show (List.headD ((files.map (filterPopular pop)).filter
        fun t => !t.rows.isEmpty) ⟨[], []⟩).schema = snapshotSchema
    obtain ⟨t, kept', hk⟩ : ∃ t kept',
        ((files.map (filterPopular pop)).filter fun t => !t.rows.isEmpty)
          = t :: kept' := by
      cases hc : ((files.map (filterPopular pop)).filter
          fun t => !t.rows.isEmpty) with
      | nil => exact absurd hc hkept
      | cons a l => exact ⟨a, l, rfl⟩
    rw [hk]
    have hmem : t ∈ (files.map (filterPopular pop)).filter
        fun t => !t.rows.isEmpty := by
      rw [hk]
      exact List.mem_cons_self t kept'
    have hmem' := List.mem_of_mem_filter hmem
    obtain ⟨t0, ht0, hft⟩ := List.mem_map.mp hmem'
    have : t.schema = t0.schema := by rw [← hft]; rfl
    rw [List.headD_cons, this]
    exact hschema t0 ht0

theorem runLoop_base (env : IngestEnv) (endDate cur iter : Nat)
    (h : endDate < cur) : runLoop env endDate cur iter = ([], .finished false) := by
  unfold runLoop
  have hz : endDate + 1 - cur = 0 := by omega
  rw [hz]
  rfl

theorem runLoop_unfold (env : IngestEnv) (endDate cur iter : Nat)
    (h : cur ≤ endDate) :
    runLoop env endDate cur iter =
      if env.budget ≤ env.elapsed iter then ([], .finished true)
      else
        match env.fetch cur with
        | .ok =>
          let r := runLoop env endDate (cur + 1) (iter + 1)
          (.fetchAttempt cur :: .writeSnapshot cur :: .writeCheckpoint cur ::
            r.1, r.2)
        | .missing =>
          let r := runLoop env endDate (cur + 1) (iter + 1)
          (.fetchAttempt cur :: r.1, r.2)
        | .fatal => ([.fetchAttempt cur], .raised) := by
  unfold runLoop
  have hs : endDate + 1 - cur = (endDate + 1 - (cur + 1)) + 1 := by omega
  rw [hs]
  show (if endDate < cur then _ else _) = _
  rw [if_neg (by omega)]

theorem runLoop_budget (env : IngestEnv) (endDate cur iter : Nat)
    (hcur : cur ≤ endDate) (hbw : env.budget ≤ env.elapsed iter) :
    runLoop env endDate cur iter = ([], .finished true) := by
  rw [runLoop_unfold env endDate cur iter hcur, if_pos hbw]

theorem runLoop_ok (env : IngestEnv) (endDate cur iter : Nat)
    (hcur : cur ≤ endDate) (hbw : ¬ env.budget ≤ env.elapsed iter)
    (hfc : env.fetch cur = .ok) :
    runLoop env endDate cur iter =
      (Event.fetchAttempt cur :: Event.writeSnapshot cur ::
          Event.writeCheckpoint cur ::
          (runLoop env endDate (cur + 1) (iter + 1)).1,
        (runLoop env endDate (cur + 1) (iter + 1)).2) := by
  rw [runLoop_unfold env endDate cur iter hcur, if_neg hbw, hfc]

theorem runLoop_missing (env : IngestEnv) (endDate cur iter : Nat)
    (hcur : cur ≤ endDate) (hbw : ¬ env.budget ≤ env.elapsed iter)
    (hfc : env.fetch cur = .missing) :
    runLoop env endDate cur iter =
      (Event.fetchAttempt cur :: (runLoop env endDate (cur + 1) (iter + 1)).1,
        (runLoop env endDate (cur + 1) (iter + 1)).2) := by
  rw [runLoop_unfold env endDate cur iter hcur, if_neg hbw, hfc]

theorem runLoop_fatal (env : IngestEnv) (endDate cur iter : Nat)
    (hcur : cur ≤ endDate) (hbw : ¬ env.budget ≤ env.elapsed iter)
    (hfc : env.fetch cur = .fatal) :
    runLoop env endDate cur iter = ([Event.fetchAttempt cur], .raised) := by
  rw [runLoop_unfold env endDate cur iter hcur, if_neg hbw, hfc]

theorem attempts_cons_fetch (d : Nat) (tr : List Event) :
    attempts (Event.fetchAttempt d :: tr) = d :: attempts tr := rfl

theorem attempts_cons_snapshot (d : Nat) (tr : List Event) :
    attempts (Event.writeSnapshot d :: tr) = attempts tr := rfl

theorem attempts_cons_checkpoint (d : Nat) (tr : List Event) :
    attempts (Event.writeCheckpoint d :: tr) = attempts tr := rfl

theorem checkpointWrites_cons_fetch (d : Nat) (tr : List Event) :
    checkpointWrites (Event.fetchAttempt d :: tr) = checkpointWrites tr := rfl

theorem checkpointWrites_cons_snapshot (d : Nat) (tr : List Event) :
    checkpointWrites (Event.writeSnapshot d :: tr) = checkpointWrites tr := rfl

theorem checkpointWrites_cons_checkpoint (d : Nat) (tr : List Event) :
    checkpointWrites (Event.writeCheckpoint d :: tr) =
      d :: checkpointWrites tr := rfl

/-- When the budget never runs out over the remaining range and no fetch is
fatal, the loop attempts exactly the dates `cur .. endDate` in ascending
order and reports no more work. -/
theorem runLoop_complete (env : IngestEnv) (endDate : Nat) :
    ∀ n cur iter, endDate + 1 - cur = n →
      (∀ j, cur + j ≤ endDate → env.elapsed (iter + j) < env.budget) →
      (∀ d, cur ≤ d → d ≤ endDate → env.fetch d ≠ .fatal) →
      attempts (runLoop env endDate cur iter).1 =
          List.range' cur (endDate + 1 - cur) ∧
        (runLoop env endDate cur iter).2 = .finished false := by
  intro n
  induction n with
  | zero =>
    intro cur iter hn _ _
    have hlt : endDate < cur := by omega
    rw [runLoop_base env endDate cur iter hlt]
    have hz : endDate + 1 - cur = 0 := hn
    rw [hz]
    exact ⟨rfl, rfl⟩
  | succ n ih =>
    intro cur iter hn hb hf
    have hcur : cur ≤ endDate := by omega
    have hbw : ¬ env.budget ≤ env.elapsed iter := by
      have h0 := hb 0 (by omega)
      rw [Nat.add_zero] at h0
      omega
    rw [runLoop_unfold env endDate cur iter hcur, if_neg hbw]
    have hb' : ∀ j, cur + 1 + j ≤ endDate →
        env.elapsed (iter + 1 + j) < env.budget := by
      intro j hj
      have := hb (j + 1) (by omega)
      have harith : iter + (j + 1) = iter + 1 + j := by omega
      rw [harith] at this
      exact this
    have hf' : ∀ d, cur + 1 ≤ d → d ≤ endDate → env.fetch d ≠ .fatal :=
      fun d h1 h2 => hf d (by omega) h2
    have hrec := ih (cur + 1) (iter + 1) (by omega) hb' hf'
    have hrange : endDate + 1 - cur = (endDate + 1 - (cur + 1)) + 1 := by omega
    cases hfc : env.fetch cur with
    | ok =>
      refine ⟨?a, ?b⟩
      case a =>
        show attempts (Event.fetchAttempt cur :: Event.writeSnapshot cur ::
            Event.writeCheckpoint cur ::
            (runLoop env endDate (cur + 1) (iter + 1)).1) =
          List.range' cur (endDate + 1 - cur)
        rw [attempts_cons_fetch, attempts_cons_snapshot,
          attempts_cons_checkpoint, hrec.1, hrange]
        rfl
      case b =>
        show (runLoop env endDate (cur + 1) (iter + 1)).2 = .finished false
        exact hrec.2
    | missing =>
      refine ⟨?a, ?b⟩
      case a =>
        show attempts (Event.fetchAttempt cur ::
            (runLoop env endDate (cur + 1) (iter + 1)).1) =
          List.range' cur (endDate + 1 - cur)
        rw [attempts_cons_fetch, hrec.1, hrange]
        rfl
      case b =>
        show (runLoop env endDate (cur + 1) (iter + 1)).2 = .finished false
        exact hrec.2
    | fatal => exact absurd hfc (hf cur (by omega) hcur)

/-- Every checkpoint value written by the loop lies in `[cur, endDate]`, comes
from a successfully fetched date, and the written values are strictly
increasing. -/
theorem checkpointWrites_runLoop (env : IngestEnv) (endDate : Nat) :
    ∀ n cur iter, endDate + 1 - cur = n →
      (∀ d ∈ checkpointWrites (runLoop env endDate cur iter).1,
          cur ≤ d ∧ d ≤ endDate ∧ env.fetch d = .ok) ∧
        (checkpointWrites (runLoop env endDate cur iter).1).Chain' (· < ·) := by
  intro n
  induction n with
  | zero =>
    intro cur iter hn
    have hlt : endDate < cur := by omega
    rw [runLoop_base env endDate cur iter hlt]
    exact ⟨by intro d hd; simp [checkpointWrites] at hd, by simp [checkpointWrites]⟩
  | succ n ih =>
    intro cur iter hn
    have hcur : cur ≤ endDate := by omega
    rw [runLoop_unfold env endDate cur iter hcur]
    by_cases hbw : env.budget ≤ env.elapsed iter
    · rw [if_pos hbw]
      exact ⟨by intro d hd; simp [checkpointWrites] at hd,
        by simp [checkpointWrites]⟩
    · rw [if_neg hbw]
      have hrec := ih (cur + 1) (iter + 1) (by omega)
      cases hfc : env.fetch cur with
      | ok =>
        rw [checkpointWrites_cons_fetch, checkpointWrites_cons_snapshot,
          checkpointWrites_cons_checkpoint]
        constructor
        · intro d hd
          rcases List.mem_cons.mp hd with rfl | hd'
          · exact ⟨Nat.le_refl _, hcur, hfc⟩
          · have := hrec.1 d hd'
            exact ⟨by omega, this.2.1, this.2.2⟩
        · rw [List.chain'_cons']
          refine ⟨?hd, hrec.2⟩
          intro b hb
          have hbmem := List.mem_of_mem_head? hb
          have := hrec.1 b hbmem
          omega
      | missing =>
        rw [checkpointWrites_cons_fetch]
        constructor
        · intro d hd
          have := hrec.1 d hd
          exact ⟨by omega, this.2.1, this.2.2⟩
        · exact hrec.2
      | fatal =>
        exact ⟨by intro d hd; simp [checkpointWrites] at hd,
          by simp [checkpointWrites]⟩

theorem snapBefore_nil : SnapBeforeCkpt [] := by
  intro tr₁ d tr₂ h
  have := congrArg List.length h
  simp at this
  omega

theorem snapBefore_cons_fetch (c : Nat) (tr : List Event)
    (h : SnapBeforeCkpt tr) : SnapBeforeCkpt (Event.fetchAttempt c :: tr) := by
  intro tr₁ d tr₂ hsplit
  cases tr₁ with
  | nil =>
    rw [List.nil_append] at hsplit
    injection hsplit with h1 h2
    exact Event.noConfusion h1
  | cons x tr₁ =>
    rw [List.cons_append] at hsplit
    injection hsplit with h1 h2
    exact List.mem_cons_of_mem x (h tr₁ d tr₂ h2)

theorem snapBefore_single_fetch (c : Nat) :
    SnapBeforeCkpt [Event.fetchAttempt c] := by
  intro tr₁ d tr₂ h
  cases tr₁ with
  | nil =>
    rw [List.nil_append] at h
    injection h with h1 h2
    exact Event.noConfusion h1
  | cons x tr₁ =>
    rw [List.cons_append] at h
    injection h with h1 h2
    have := congrArg List.length h2
    simp at this
    omega

theorem snapBefore_cons_ok (c : Nat) (tr : List Event) (h : SnapBeforeCkpt tr) :
    SnapBeforeCkpt (Event.writeSnapshot c :: Event.writeCheckpoint c :: tr) := by
  intro tr₁ d tr₂ hsplit
  cases tr₁ with
  | nil =>
    rw [List.nil_append] at hsplit
    injection hsplit with h1 h2
    exact Event.noConfusion h1
  | cons x tr₁ =>
    rw [List.cons_append] at hsplit
    injection hsplit with h1 h2
    subst h1
    cases tr₁ with
    | nil =>
      rw [List.nil_append] at h2
      injection h2 with h3 h4
      injection h3 with h5
      subst h5
      exact List.mem_cons_self _ _
    | cons y tr₁ =>
      rw [List.cons_append] at h2
      injection h2 with h3 h4
      exact List.mem_cons_of_mem _ (List.mem_cons_of_mem y (h tr₁ d tr₂ h4))

/-- The whole loop trace satisfies the snapshot-before-checkpoint order. -/
theorem snapBefore_runLoop (env : IngestEnv) (endDate : Nat) :
    ∀ n cur iter, endDate + 1 - cur = n →
      SnapBeforeCkpt (runLoop env endDate cur iter).1 := by
  intro n
  induction n with
  | zero =>
    intro cur iter hn
    rw [runLoop_base env endDate cur iter (by omega)]
    exact snapBefore_nil
  | succ n ih =>
    intro cur iter hn
    have hcur : cur ≤ endDate := by omega
    by_cases hbw : env.budget ≤ env.elapsed iter
    · rw [runLoop_budget env endDate cur iter hcur hbw]
      exact snapBefore_nil
    · cases hfc : env.fetch cur with
      | ok =>
        rw [runLoop_ok env endDate cur iter hcur hbw hfc]
        exact snapBefore_cons_fetch cur _
          (snapBefore_cons_ok cur _ (ih (cur + 1) (iter + 1) (by omega)))
      | missing =>
        rw [runLoop_missing env endDate cur iter hcur hbw hfc]
        exact snapBefore_cons_fetch cur _ (ih (cur + 1) (iter + 1) (by omega))
      | fatal =>
        rw [runLoop_fatal env endDate cur iter hcur hbw hfc]
        exact snapBefore_single_fetch cur

/-- Any date whose snapshot the loop wrote also had its checkpoint written
(a date in flight completes before the loop returns). -/
theorem inflight_completes_runLoop (env : IngestEnv) (endDate : Nat) :
    ∀ n cur iter, endDate + 1 - cur = n →
      ∀ d, Event.writeSnapshot d ∈ (runLoop env endDate cur iter).1 →
        Event.writeCheckpoint d ∈ (runLoop env endDate cur iter).1 := by
  intro n
  induction n with
  | zero =>
    intro cur iter hn d hd
    rw [runLoop_base env endDate cur iter (by omega)] at hd ⊢
    simp at hd
  | succ n ih =>
    intro cur iter hn d hd
    have hcur : cur ≤ endDate := by omega
    by_cases hbw : env.budget ≤ env.elapsed iter
    · rw [runLoop_budget env endDate cur iter hcur hbw] at hd ⊢
      simp at hd
    · cases hfc : env.fetch cur with
      | ok =>
        rw [runLoop_ok env endDate cur iter hcur hbw hfc] at hd ⊢
        rcases List.mem_cons.mp hd with h1 | hd'
        · exact Event.noConfusion h1
        · rcases List.mem_cons.mp hd' with h2 | hd''
          · injection h2 with h3
            subst h3
            exact List.mem_cons_of_mem _ (List.mem_cons_of_mem _
              (List.mem_cons_self _ _))
          · rcases List.mem_cons.mp hd'' with h3 | hd3
            · exact Event.noConfusion h3
            · exact List.mem_cons_of_mem _ (List.mem_cons_of_mem _
                (List.mem_cons_of_mem _ (ih (cur + 1) (iter + 1) (by omega) d hd3)))
      | missing =>
        rw [runLoop_missing env endDate cur iter hcur hbw hfc] at hd ⊢
        rcases List.mem_cons.mp hd with h1 | hd'
        · exact Event.noConfusion h1
        · exact List.mem_cons_of_mem _ (ih (cur + 1) (iter + 1) (by omega) d hd')
      | fatal =>
        rw [runLoop_fatal env endDate cur iter hcur hbw hfc] at hd ⊢
        rcases List.mem_cons.mp hd with h1 | hd'
        · exact Event.noConfusion h1
        · simp at hd'

/-- `finalCheckpoint` only produces values satisfying any predicate that holds
of the initial checkpoint and of every written value. -/
theorem finalCheckpoint_spec (B : Nat → Prop) :
    ∀ (tr : List Event) (init : Option Nat),
      (∀ d ∈ checkpointWrites tr, B d) →
      (∀ c, init = some c → B c) →
      ∀ c, finalCheckpoint init tr = some c → B c := by
  intro tr
  induction tr with
  | nil =>
    intro init h1 h2 c hc
    exact h2 c hc
  | cons e tr ih =>
    intro init h1 h2 c hc
    cases e with
    | writeCheckpoint d =>
      rw [checkpointWrites_cons_checkpoint] at h1
      refine ih (some d) ?w ?i c hc
      case w =>
        intro d' hd'
        exact h1 d' (List.mem_cons_of_mem _ hd')
      case i =>
        intro c' hc'
        injection hc' with h3
        subst h3
        exact h1 d (List.mem_cons_self _ _)
    | fetchAttempt d =>
      rw [checkpointWrites_cons_fetch] at h1
      exact ih init h1 h2 c hc
    | writeSnapshot d =>
      rw [checkpointWrites_cons_snapshot] at h1
      exact ih init h1 h2 c hc

/-- A defined initial checkpoint stays defined. -/
theorem finalCheckpoint_isSome :
    ∀ (tr : List Event) (c : Nat) (init : Option Nat), init = some c →
      ∃ c', finalCheckpoint init tr = some c' := by
  intro tr
  induction tr with
  | nil =>
    intro c init hinit
    exact ⟨c, hinit⟩
  | cons e tr ih =>
    intro c init hinit
    cases e with
    | writeCheckpoint d => exact ih d (some d) rfl
    | fetchAttempt d => exact ih c init hinit
    | writeSnapshot d => exact ih c init hinit

/-- C5: with stored checkpoint `C` and bound `yesterday` (and a budget that
never expires over the range, no fatal fetch), one invocation attempts exactly
the dates `C+1 .. yesterday` in ascending order and reports no further work;
when `C+1 > yesterday` it performs no effects at all and returns `False`. -/
theorem run_date_range (env : IngestEnv) (C defaultStart yesterday : Nat)
    (hb : ∀ j, C + 1 + j ≤ yesterday → env.elapsed j < env.budget)
    (hf : ∀ d, C + 1 ≤ d → d ≤ yesterday → env.fetch d ≠ .fatal) :
    (attempts (run env (some C) defaultStart yesterday).1 =
      List.range' (C + 1) (yesterday + 1 - (C + 1))) ∧
    ((run env (some C) defaultStart yesterday).2 = .finished false) ∧
    (yesterday < C + 1 →
      run env (some C) defaultStart yesterday = ([], .finished false)) := by
  have hstart : startOf (some C) defaultStart = C + 1 := rfl
  by_cases hy : yesterday < C + 1
  · have hrun : run env (some C) defaultStart yesterday = ([], .finished false) := by
      unfold run
      rw [hstart, if_pos hy]
    refine ⟨?a, ?b, fun _ => hrun⟩
    case a =>
      rw [hrun]
      have hz : yesterday + 1 - (C + 1) = 0 := by omega
      rw [hz]
      rfl
    case b => rw [hrun]
  · have hb0 : ∀ j, C + 1 + j ≤ yesterday → env.elapsed (0 + j) < env.budget := by
      intro j hj
      rw [Nat.zero_add]
      exact hb j hj
    have hcomp := runLoop_complete env yesterday (yesterday + 1 - (C + 1))
      (C + 1) 0 rfl hb0 hf
    have hrun : run env (some C) defaultStart yesterday =
        runLoop env yesterday (C + 1) 0 := by
      unfold run
      rw [hstart, if_neg hy]
    refine ⟨?a, ?b, fun hcon => absurd hcon hy⟩
    case a => rw [hrun]; exact hcomp.1
    case b => rw [hrun]; exact hcomp.2

/-- C7: in any run's trace, a checkpoint write for a date is always preceded
by that date's snapshot write, so the stored checkpoint only ever names a
date whose snapshot write has completed. -/
theorem snapshot_before_checkpoint (env : IngestEnv) (checkpoint : Option Nat)
    (defaultStart yesterday : Nat) (tr₁ tr₂ : List Event) (d : Nat)
    (hsplit : (run env checkpoint defaultStart yesterday).1 =
      tr₁ ++ Event.writeCheckpoint d :: tr₂) :
    Event.writeSnapshot d ∈ tr₁ := by
  unfold run at hsplit
  by_cases hy : yesterday < startOf checkpoint defaultStart
  · rw [if_pos hy] at hsplit
    have := congrArg List.length hsplit
    simp at this
    omega
  · rw [if_neg hy] at hsplit
    exact snapBefore_runLoop env yesterday
      (yesterday + 1 - startOf checkpoint defaultStart)
      (startOf checkpoint defaultStart) 0 rfl tr₁ d tr₂ hsplit

/-- C8: the budget is checked at the top of each date's iteration; once
exceeded the loop returns `True` with no further fetch, snapshot or
checkpoint events, and in any run a date whose snapshot was written also had
its checkpoint written before the run returned. -/
theorem budget_cancellation (env : IngestEnv) (endDate cur iter : Nat)
    (hcur : cur ≤ endDate) (hbw : env.budget ≤ env.elapsed iter) :
    runLoop env endDate cur iter = ([], .finished true) ∧
    (∀ (checkpoint : Option Nat) (defaultStart yesterday d : Nat),
      Event.writeSnapshot d ∈ (run env checkpoint defaultStart yesterday).1 →
      Event.writeCheckpoint d ∈ (run env checkpoint defaultStart yesterday).1) := by
  refine ⟨runLoop_budget env endDate cur iter hcur hbw, ?c⟩
  intro checkpoint defaultStart yesterday d hd
  unfold run at hd ⊢
  by_cases hy : yesterday < startOf checkpoint defaultStart
  · rw [if_pos hy] at hd
    simp at hd
  · rw [if_neg hy] at hd ⊢
    exact inflight_completes_runLoop env yesterday
      (yesterday + 1 - startOf checkpoint defaultStart)
      (startOf checkpoint defaultStart) 0 rfl d hd

/-- C9: within one run the checkpoint writes are strictly increasing, each
strictly beyond the checkpoint read at loop start, and the stored checkpoint
never regresses below it. -/
theorem checkpoint_monotone (env : IngestEnv) (C defaultStart yesterday : Nat) :
    ((checkpointWrites
        (run env (some C) defaultStart yesterday).1).Chain' (· < ·)) ∧
    (∀ d ∈ checkpointWrites (run env (some C) defaultStart yesterday).1,
      C < d) ∧
    (∀ c, finalCheckpoint (some C)
        (run env (some C) defaultStart yesterday).1 = some c → C ≤ c) := by
  have hstart : startOf (some C) defaultStart = C + 1 := rfl
  by_cases hy : yesterday < C + 1
  · have hrun : run env (some C) defaultStart yesterday = ([], .finished false) := by
      unfold run
      rw [hstart, if_pos hy]
    rw [hrun]
    refine ⟨by simp [checkpointWrites], ?bd, ?f⟩
    case bd =>
      intro d hd
      simp [checkpointWrites] at hd
    case f =>
      intro c hc
      have h2 : (some C : Option Nat) = some c := hc
      injection h2 with h
      omega
  · have hrun : run env (some C) defaultStart yesterday =
        runLoop env yesterday (C + 1) 0 := by
      unfold run
      rw [hstart, if_neg hy]
    have hchar := checkpointWrites_runLoop env yesterday
      (yesterday + 1 - (C + 1)) (C + 1) 0 rfl
    rw [hrun]
    refine ⟨hchar.2, ?bd, ?f⟩
    case bd =>
      intro d hd
      have := hchar.1 d hd
      omega
    case f =>
      intro c hc
      refine finalCheckpoint_spec (fun x => C ≤ x) _ (some C) ?w ?i c hc
      case w =>
        intro d hd
        have := hchar.1 d hd
        omega
      case i =>
        intro c' hc'
        injection hc' with h
        omega

/-- C1 counterexample: with checkpoint 10 and yesterday 12, date 11 raises
MissingUpstreamData, yet the run stores checkpoint 12 — strictly past 11 —
and 11 does not lie in the next invocation's attempted range
`{13, ..., 12} = ∅`, so it is never retried. -/
theorem missing_not_retried_counterexample :
    envMissing.fetch 11 = .missing ∧
    finalCheckpoint (some 10) (run envMissing (some 10) 0 12).1 = some 12 ∧
    11 ∉ List.range' (12 + 1) (12 + 1 - (12 + 1)) := by decide

/-- C1 amended: a MissingUpstreamData date `D` is never itself written as the
checkpoint; and provided no later date of the range is fetched successfully,
the stored checkpoint stays strictly below `D`, which therefore lies in the
next invocation's attempted range. (If any later date succeeds, the
checkpoint moves past `D` and `D` is not retried.) -/
theorem missing_retried_amended (env : IngestEnv)
    (C D defaultStart yesterday : Nat)
    (hCD : C < D) (hDY : D ≤ yesterday) (hmiss : env.fetch D = .missing)
    (hlater : ∀ d, D < d → d ≤ yesterday → env.fetch d ≠ .ok) :
    (Event.writeCheckpoint D ∉ (run env (some C) defaultStart yesterday).1) ∧
    (∃ c, finalCheckpoint (some C)
        (run env (some C) defaultStart yesterday).1 = some c ∧
      c < D ∧ D ∈ List.range' (c + 1) (yesterday + 1 - (c + 1))) := by
  have hstart : startOf (some C) defaultStart = C + 1 := rfl
  have hy : ¬ yesterday < C + 1 := by omega
  have hrun : run env (some C) defaultStart yesterday =
      runLoop env yesterday (C + 1) 0 := by
    unfold run
    rw [hstart, if_neg hy]
  have hchar := checkpointWrites_runLoop env yesterday
    (yesterday + 1 - (C + 1)) (C + 1) 0 rfl
  have hlt : ∀ d ∈ checkpointWrites (runLoop env yesterday (C + 1) 0).1,
      d < D := by
    intro d hd
    have hc := hchar.1 d hd
    rcases Nat.lt_trichotomy d D with h | h | h
    · exact h
    · exfalso
      have hok := hc.2.2
      rw [h, hmiss] at hok
      exact FetchResult.noConfusion hok
    · exact absurd hc.2.2 (hlater d h hc.2.1)
  constructor
  · intro hwc
    rw [hrun] at hwc
    have hD : D ∈ checkpointWrites (runLoop env yesterday (C + 1) 0).1 :=
      List.mem_filterMap.mpr ⟨Event.writeCheckpoint D, hwc, rfl⟩
    exact absurd (hlt D hD) (by omega)
  · rw [hrun]
    obtain ⟨c, hc⟩ := finalCheckpoint_isSome
      (runLoop env yesterday (C + 1) 0).1 C (some C) rfl
    refine ⟨c, hc, ?lt, ?mem⟩
    case lt =>
      exact finalCheckpoint_spec (fun x => x < D) _ (some C) hlt
        (fun c' hc' => by injection hc' with h; omega) c hc
    case mem =>
      have hcd : c < D := finalCheckpoint_spec (fun x => x < D) _ (some C) hlt
        (fun c' hc' => by injection hc' with h; omega) c hc
      rw [List.mem_range'_1]
      omega

theorem parseLine_spec (dateStr : String) (acc : List Row)
    (split : List String) (acc' : List Row)
    (h : parseLine dateStr acc split = .ok acc') :
    acc' = acc ∨ ∃ en pid v, pid ≠ "null" ∧
      acc' = acc ++ [⟨dateStr, en, pid, v⟩] := by
  unfold parseLine at h
  split at h
  case h_1 project entity page_id f4 view_count f6 =>
    split at h
    case isTrue hcond =>
      split at h
      case h_1 v hv =>
        injection h with h1
        exact Or.inr ⟨entity, page_id, v, hcond.2, h1.symm⟩
      case h_2 => exact Except.noConfusion h
    case isFalse =>
      injection h with h1
      exact Or.inl h1.symm
  case h_2 =>
    injection h with h1
    exact Or.inl h1.symm

theorem foldlM_parseLine_spec (dateStr : String) :
    ∀ (lines : List (List String)) (acc rows : List Row),
      List.foldlM (parseLine dateStr) acc lines = .ok rows →
      (∀ r ∈ acc, r.page_id ≠ "null" ∧ r.date = dateStr) →
      ∀ r ∈ rows, r.page_id ≠ "null" ∧ r.date = dateStr := by
  intro lines
  induction lines with
  | nil =>
    intro acc rows h hacc
    have hr : acc = rows := by
      have h2 : (Except.ok acc : Except Unit (List Row)) = .ok rows := h
      injection h2
    exact hr ▸ hacc
  | cons l ls ih =>
    intro acc rows h hacc
    rw [List.foldlM_cons] at h
    cases hstep : parseLine dateStr acc l with
    | error e =>
      rw [hstep] at h
      exact Except.noConfusion h
    | ok acc' =>
      rw [hstep] at h
      have hnext : List.foldlM (parseLine dateStr) acc' ls = .ok rows := h
      refine ih acc' rows hnext ?acc
      rcases parseLine_spec dateStr acc l acc' hstep with rfl | ⟨en, pid, v, hpid, rfl⟩
      · exact hacc
      · intro r hr
        rcases List.mem_append.mp hr with hr1 | hr2
        · exact hacc r hr1
        · rcases List.mem_singleton.mp hr2 with rfl
          exact ⟨hpid, rfl⟩

/-- Rows accepted by the ingest step never carry the literal page id
`"null"`, and all carry the fetched date. -/
theorem fetch_pageviews_rows (dateStr : String) (lines : List (List String))
    (rows : List Row) (h : fetch_pageviews dateStr lines = .ok rows) :
    ∀ r ∈ rows, r.page_id ≠ "null" ∧ r.date = dateStr := by
  unfold fetch_pageviews at h
  cases hfold : List.foldlM (parseLine dateStr) [] lines with
  | error e =>
    rw [hfold] at h
    exact Except.noConfusion h
  | ok rows0 =>
    rw [hfold] at h
    have h2 : (if rows0.isEmpty then (Except.error () : Except Unit (List Row))
        else Except.ok rows0) = Except.ok rows := h
    have hrows : rows0 = rows := by
      by_cases hempty : rows0.isEmpty
      · rw [if_pos hempty] at h2
        exact Except.noConfusion h2
      · rw [if_neg hempty] at h2
        injection h2
    subst hrows
    exact foldlM_parseLine_spec dateStr lines [] rows0 hfold (by simp)

/-- Each emitted monthly row's views are the sum over its matching snapshot
rows (a non-empty set), and its entity is the last matching row's entity. -/
theorem transform_monthly_mem (files : List (List Row)) (mr : MonthlyRow)
    (hmr : mr ∈ transform_monthly_views files) :
    rowsFor (mr.month, mr.page_id) files.flatten ≠ [] ∧
    mr.views =
      ((rowsFor (mr.month, mr.page_id) files.flatten).map Row.views).sum := by
  have hnodup : ((accRows files.flatten []).map Prod.fst).Nodup :=
    nodup_keys_accRows files.flatten [] (by simp)
  obtain ⟨kev, hkev, hg⟩ := List.mem_map.mp hmr
  obtain ⟨key, e, v⟩ := kev
  have hfind : accFind key (accRows files.flatten []) = some (e, v) :=
    accFind_of_mem _ hnodup key e v hkev
  rw [accFind_accRows_none files.flatten [] key rfl] at hfind
  have hkey : (mr.month, mr.page_id) = key := by rw [← hg]
  have hv : mr.views = v := by rw [← hg]
  cases hlast : ((rowsFor key files.flatten).map Row.entity).getLast? with
  | none =>
    rw [hlast] at hfind
    exact absurd hfind (by simp)
  | some e' =>
    rw [hlast] at hfind
    injection hfind with hf
    injection hf with hf1 hf2
    constructor
    · intro hempty
      rw [← hkey, hempty] at hlast
      simp at hlast
    · rw [hv, hkey, ← hf2]

/-- C6 amended: every row of both transform outputs built from
ingest-accepted snapshots has `page_id ≠ "null"`; and when every snapshot row
additionally has strictly positive views (which ingest acceptance alone does
not guarantee — a line with count `0` is accepted), every output row's views
are strictly positive. -/
theorem schema_invariants_amended (files : List Table) (pop : Finset String)
    (hsrc : ∀ t ∈ files, ∃ ds lines, fetch_pageviews ds lines = .ok t.rows)
    (hpos : ∀ t ∈ files, ∀ r ∈ t.rows, 0 < r.views) :
    (∀ r ∈ (transform_popular_pages files pop).rows,
      r.page_id ≠ "null" ∧ 0 < r.views) ∧
    (∀ mr ∈ transform_monthly_views (files.map Table.rows),
      mr.page_id ≠ "null" ∧ 0 < mr.views) := by
  have hrow : ∀ r ∈ (files.map Table.rows).flatten,
      r.page_id ≠ "null" ∧ 0 < r.views := by
    intro r hr
    obtain ⟨rowsList, hrl, hrin⟩ := List.mem_flatten.mp hr
    obtain ⟨t, ht, hteq⟩ := List.mem_map.mp hrl
    obtain ⟨ds, lines, hok⟩ := hsrc t ht
    have hrt : r ∈ t.rows := hteq ▸ hrin
    exact ⟨(fetch_pageviews_rows ds lines t.rows hok r hrt).1, hpos t ht r hrt⟩
  constructor
  · intro r hr
    rw [popular_series_rows_eq] at hr
    exact hrow r (List.mem_of_mem_filter hr)
  · intro mr hmr
    obtain ⟨hne, hsum⟩ := transform_monthly_mem (files.map Table.rows) mr hmr
    obtain ⟨r0, hr0⟩ := List.exists_mem_of_ne_nil _ hne
    have hr0f := List.mem_of_mem_filter hr0
    have hr0c := List.of_mem_filter hr0
    have hcond : monthOf r0 = mr.month ∧ r0.page_id = mr.page_id := by
      simpa using hr0c
    constructor
    · rw [← hcond.2]
      exact (hrow r0 hr0f).1
    · rw [hsum]
      refine List.sum_pos _ ?pos ?ne
      case pos =>
        intro v hv
        obtain ⟨r1, hr1, rfl⟩ := List.mem_map.mp hv
        exact (hrow r1 (List.mem_of_mem_filter hr1)).2
      case ne =>
        intro hm
        exact hne (List.map_eq_nil_iff.mp hm)

/-- C6 counterexample: the ingest step accepts a line with view count `0`
(it only filters the project and the `"null"` page id), and the monthly
output built from the resulting snapshot contains a row with views = 0,
violating "views always > 0". -/
theorem zero_views_counterexample :
    fetch_pageviews "2024-01-05" linesZero = .ok [rowZero] ∧
    (transform_monthly_views [[rowZero]]).map MonthlyRow.views = [0] ∧
    ¬ (∀ mr ∈ transform_monthly_views [[rowZero]], 0 < mr.views) :=
  ⟨rfl, by decide, by decide⟩

theorem missing_retried_amended_witness :
    (Event.writeCheckpoint 11 ∉ (run envAllMissing (some 10) 0 12).1) ∧
    (∃ c, finalCheckpoint (some 10) (run envAllMissing (some 10) 0 12).1
        = some c ∧
      c < 11 ∧ 11 ∈ List.range' (c + 1) (12 + 1 - (c + 1))) :=
  missing_retried_amended envAllMissing 10 11 0 12 (by decide) (by decide) rfl
    (fun _ _ _ h => FetchResult.noConfusion h)

theorem monthly_totals_correct_witness :
    ("2024-01", "pageA") ∈ (transform_monthly_views exFiles).map
      (fun m => (m.month, m.page_id)) ∧
    (⟨"2024-01", "pageA", "eA", 150⟩ : MonthlyRow).views =
      ((rowsFor ("2024-01", "pageA") exFiles.flatten).map Row.views).sum :=
  ⟨((monthly_totals_correct exFiles).2.1 ("2024-01", "pageA")).mpr (by decide),
   ((monthly_totals_correct exFiles).2.2
      ⟨"2024-01", "pageA", "eA", 150⟩ (by decide)).1⟩

theorem popular_set_spec_witness :
    "pageA" ∈ build_popular_pages_set 1 exFiles :=
  ((popular_set_spec 1 exFiles).1 "pageA").mpr (by decide)

theorem popular_series_spec_witness :
    (rowA "2024-01-01").page_id ∈ popEx :=
  (popular_series_spec exTables popEx).2.1 (rowA "2024-01-01") (by decide)

theorem run_date_range_witness :
    attempts (run envOk (some 3) 0 5).1 = List.range' 4 (5 + 1 - 4) :=
  (run_date_range envOk 3 0 5 (fun _ _ => Nat.zero_lt_one)
    (fun _ _ _ h => FetchResult.noConfusion h)).1

theorem schema_invariants_amended_witness :
    (⟨"2024-01", "P", "E", 5⟩ : MonthlyRow).page_id ≠ "null" ∧
      0 < (⟨"2024-01", "P", "E", 5⟩ : MonthlyRow).views :=
  (schema_invariants_amended [tableEx] {"P"}
    (by
      intro t ht
      rcases List.mem_singleton.mp ht with rfl
      exact ⟨"2024-01-05", [["en.wikipedia", "E", "P", "d", "5", "a"]], rfl⟩)
    (by decide)).2 ⟨"2024-01", "P", "E", 5⟩ (by decide)

theorem snapshot_before_checkpoint_witness :
    Event.writeSnapshot 5 ∈ [Event.fetchAttempt 5, Event.writeSnapshot 5] :=
  snapshot_before_checkpoint envOk (some 4) 0 5
    [Event.fetchAttempt 5, Event.writeSnapshot 5] [] 5 (by decide)

theorem budget_cancellation_witness :
    runLoop envBudget 5 4 0 = ([], .finished true) :=
  (budget_cancellation envBudget 5 4 0 (by decide) (by decide)).1

theorem checkpoint_monotone_witness :
    ((checkpointWrites (run envOk (some 3) 0 5).1).Chain' (· < ·)) ∧
    (3 : Nat) < 4 :=
  ⟨(checkpoint_monotone envOk 3 0 5).1,
   (checkpoint_monotone envOk 3 0 5).2.1 4 (by decide)⟩

theorem popular_series_schema_split_witness :
    (transform_popular_pages [tableEx] {"P"}).schema = snapshotSchema :=
  (popular_series_schema_split [tableEx] {"P"}
    (by
      intro t ht
      rcases List.mem_singleton.mp ht with rfl
      rfl)).1 (by decide)

end PageViews
